import Mathlib

/-!
# Verification of the duet cooperative scheduler core (`duet/__init__.py`)

This file gives a shallow embedding, in Lean 4, of the structured-concurrency
core of the duet library: the ordered parallel map (`pmap_aiter`), the scope
machinery (`new_scope`, `Scope.spawn`), the FIFO `Limiter` with its `Slot`
handles, the blocking entry point `run`, and the `awaitable` adaptor.  The
scheduler internals (`duet/impl.py`), the future primitives
(`duet/futuretools.py`) and the async-iterator helpers (`duet/aitertools.py`)
are not part of the sources; where a definition depends on them it is modelled
from the specification and marked as such in its doc comment.

Machine conventions: Python integers are embedded as `Int` (they are
unbounded); Python dicts keyed by naturals are embedded as association lists;
`while` loops are embedded with explicit fuel equal to their termination
measure; code that can raise returns `Option`/`Except`.
-/

namespace Duet

/-! ## Ordered pmap: the buffer drain of `pmap_aiter`

`pmap_aiter` (duet/__init__.py lines 214-246) spawns one worker per input
item; each worker emits `(index, value)` into a collector.  The consuming
loop buffers out-of-order completions in the dict `buffer` and yields values
in ascending index order:

    buffer: Dict[int, U] = {}
    next_idx = 0
    async for i, value in collector:
        buffer[i] = value
        while next_idx in buffer:
            yield buffer.pop(next_idx)
            next_idx += 1
    while buffer:
        yield buffer.pop(next_idx)
        next_idx += 1
-/

variable {α β : Type}

/-- `buffer[i] = value` on a Python dict embedded as an association list:
replace the value in place if the key is present, else append. -/
def dictInsert : List (Nat × α) → Nat → α → List (Nat × α)
  | [], k, v => [(k, v)]
  | (k', v') :: rest, k, v =>
    if k' = k then (k, v) :: rest else (k', v') :: dictInsert rest k v

/-- `buffer.pop(k)` on a Python dict embedded as an association list:
returns the value and the remaining dict, or `none` (KeyError) if absent. -/
def dictPop : List (Nat × α) → Nat → Option (α × List (Nat × α))
  | [], _ => none
  | (k', v') :: rest, k =>
    if k' = k then some (v', rest)
    else (dictPop rest k).map (fun p => (p.1, (k', v') :: p.2))

/-- The inner loop `while next_idx in buffer: yield buffer.pop(next_idx);
next_idx += 1` of `pmap_aiter`.  The loop pops one dict entry per iteration,
so the dict size bounds the iteration count; it is passed as fuel. -/
def drainReadyF (fuel : Nat) (b : List (Nat × α)) (next : Nat) :
    List α × List (Nat × α) × Nat :=
  match fuel with
  | 0 => ([], b, next)
  | fuel + 1 =>
    match dictPop b next with
    | none => ([], b, next)
    | some (v, b') =>
      let r := drainReadyF fuel b' (next + 1)
      (v :: r.1, r.2.1, r.2.2)

/-- The inner drain loop of `pmap_aiter`, with fuel instantiated to its
termination measure. -/
def drainReady (b : List (Nat × α)) (next : Nat) : List α × List (Nat × α) × Nat :=
  drainReadyF b.length b next

/-- The trailing loop `while buffer: yield buffer.pop(next_idx); next_idx += 1`
of `pmap_aiter`.  `buffer.pop` raises KeyError when `next_idx` is missing,
embedded as `none`. -/
def finalDrainF (fuel : Nat) (b : List (Nat × α)) (next : Nat) : Option (List α) :=
  match fuel with
  | 0 => if b.isEmpty then some [] else none
  | fuel + 1 =>
    if b.isEmpty then some []
    else
      match dictPop b next with
      | none => none
      | some (v, b') => (finalDrainF fuel b' (next + 1)).map (fun l => v :: l)

/-- The trailing drain loop of `pmap_aiter` with fuel instantiated to its
termination measure. -/
def finalDrain (b : List (Nat × α)) (next : Nat) : Option (List α) :=
  finalDrainF b.length b next

/-- State of the consuming loop of `pmap_aiter`: values yielded so far, the
`buffer` dict, and `next_idx`. -/
structure DrainState (α : Type) where
  out : List α
  buffer : List (Nat × α)
  next : Nat
deriving Repr, DecidableEq

/-- Processing of one `(i, value)` pair received from the collector:
`buffer[i] = value` followed by the inner drain loop. -/
def pmapStep (st : DrainState α) (e : Nat × α) : DrainState α :=
  let b := dictInsert st.buffer e.1 e.2
  let r := drainReady b st.next
  ⟨st.out ++ r.1, r.2.1, r.2.2⟩

/-- The full consuming loop of `pmap_aiter`: fold the collector's completion
events (in the order they are emitted) through `pmapStep`, then run the
trailing drain loop.  `none` embeds a KeyError escape from the final loop. -/
def pmapDrain (events : List (Nat × α)) : Option (List α) :=
  let st := events.foldl pmapStep ⟨[], [], 0⟩
  (finalDrain st.buffer st.next).map (fun l => st.out ++ l)

/-! ### Lemmas about the dict embedding -/

theorem dictPop_length {b : List (Nat × α)} {k : Nat} {v : α} {b' : List (Nat × α)}
    (h : dictPop b k = some (v, b')) : b'.length + 1 = b.length := by
  induction b generalizing b' with
  | nil => simp [dictPop] at h
  | cons hd tl ih =>
    obtain ⟨k', v'⟩ := hd
    simp only [dictPop] at h
    split at h
    · simp only [Option.some.injEq, Prod.mk.injEq] at h
      obtain ⟨rfl, rfl⟩ := h
      rfl
    · rcases hpop : dictPop tl k with _ | ⟨w, r⟩
      · simp [hpop] at h
      · simp only [hpop, Option.map_some', Option.some.injEq, Prod.mk.injEq] at h
        obtain ⟨rfl, rfl⟩ := h
        simp [← ih hpop]

theorem dictPop_perm {b : List (Nat × α)} {k : Nat} {v : α} {b' : List (Nat × α)}
    (h : dictPop b k = some (v, b')) : b.Perm ((k, v) :: b') := by
  induction b generalizing b' with
  | nil => simp [dictPop] at h
  | cons hd tl ih =>
    obtain ⟨k', v'⟩ := hd
    simp only [dictPop] at h
    split at h
    · rename_i heq
      simp only [Option.some.injEq, Prod.mk.injEq] at h
      obtain ⟨rfl, rfl⟩ := h
      subst heq
      exact List.Perm.refl _
    · rcases hpop : dictPop tl k with _ | ⟨w, r⟩
      · simp [hpop] at h
      · simp only [hpop, Option.map_some', Option.some.injEq, Prod.mk.injEq] at h
        obtain ⟨rfl, rfl⟩ := h
        exact ((ih hpop).cons (k', v')).trans (List.Perm.swap _ _ _)

theorem dictPop_ne_none_of_mem {b : List (Nat × α)} {k : Nat} {v : α}
    (h : (k, v) ∈ b) : dictPop b k ≠ none := by
  induction b with
  | nil => simp at h
  | cons hd tl ih =>
    obtain ⟨k', v'⟩ := hd
    simp only [dictPop]
    split
    · simp
    · rename_i hne
      rcases List.mem_cons.mp h with heq | hmem
      · exact absurd (congrArg Prod.fst heq).symm hne
      · rcases hpop : dictPop tl k with _ | p
        · exact absurd hpop (ih hmem)
        · simp [hpop]

theorem dictInsert_of_not_mem {b : List (Nat × α)} {k : Nat} (v : α)
    (h : k ∉ b.map Prod.fst) : dictInsert b k v = b ++ [(k, v)] := by
  induction b with
  | nil => rfl
  | cons hd tl ih =>
    obtain ⟨k', v'⟩ := hd
    simp only [List.map_cons, List.mem_cons, not_or] at h
    have hne : ¬ k' = k := fun hh => h.1 hh.symm
    simp only [dictInsert, if_neg hne, List.cons_append, ih h.2]

/-! ### Lemmas about `List.enum` suffixes -/

theorem mem_enum_drop {l : List α} {m : Nat} {p : Nat × α}
    (h : p ∈ l.enum.drop m) : m ≤ p.1 ∧ l[p.1]? = some p.2 := by
  obtain ⟨i, hi, hget⟩ := List.getElem_of_mem h
  rw [List.getElem_drop] at hget
  have hlt : m + i < l.enum.length := by
    have := List.length_drop m l.enum ▸ hi
    omega
  have hlen : m + i < l.length := by simpa [List.enum_length] using hlt
  rw [List.getElem_enum] at hget
  constructor
  · rw [← hget]; exact Nat.le_add_right m i
  · rw [← hget]
    exact List.getElem?_eq_getElem hlen

theorem enum_drop_cons {l : List α} {n : Nat} (h : n < l.length) :
    l.enum.drop n = (n, l[n]) :: l.enum.drop (n + 1) := by
  have hlt : n < l.enum.length := by simpa [List.enum_length] using h
  rw [List.drop_eq_getElem_cons hlt, List.getElem_enum]

theorem nodup_keys_enum_drop (l : List α) (m : Nat) :
    ((l.enum.drop m).map Prod.fst).Nodup := by
  rw [List.map_drop, List.enum_map_fst]
  exact (List.drop_sublist m (List.range l.length)).nodup (List.nodup_range _)

/-! ### The drain-loop invariant of `pmap_aiter` -/

/-- Invariant of the consuming loop of `pmap_aiter`, relating the loop state
to the events not yet received from the collector: the values already yielded
are exactly the first `next` results, the buffered pairs together with the
pending events are exactly the not-yet-yielded indexed results, and `next`
itself is not buffered. -/
def DrainInv (l : List β) (remaining : List (Nat × β)) (st : DrainState β) : Prop :=
  st.out = l.take st.next ∧
  (st.buffer ++ remaining).Perm (l.enum.drop st.next) ∧
  dictPop st.buffer st.next = none

theorem drainReadyF_spec (l : List β) (rest : List (Nat × β)) :
    ∀ (fuel : Nat) (b : List (Nat × β)) (next : Nat), b.length ≤ fuel →
    (b ++ rest).Perm (l.enum.drop next) →
    l.take next ++ (drainReadyF fuel b next).1 = l.take (drainReadyF fuel b next).2.2 ∧
    ((drainReadyF fuel b next).2.1 ++ rest).Perm (l.enum.drop (drainReadyF fuel b next).2.2) ∧
    dictPop (drainReadyF fuel b next).2.1 (drainReadyF fuel b next).2.2 = none := by
  intro fuel
  induction fuel with
  | zero =>
    intro b next hlen hperm
    have hb : b = [] := List.length_eq_zero.mp (Nat.le_zero.mp hlen)
    subst hb
    exact ⟨by simp [drainReadyF], by simpa [drainReadyF] using hperm, rfl⟩
  | succ fuel ih =>
    intro b next hlen hperm
    rcases hpop : dictPop b next with _ | ⟨v, b'⟩
    · exact ⟨by simp [drainReadyF, hpop], by simpa [drainReadyF, hpop] using hperm,
        by simp [drainReadyF, hpop, hpop]⟩
    · have hbperm : (b ++ rest).Perm ((next, v) :: (b' ++ rest)) :=
        (dictPop_perm hpop).append_right rest
      have hperm' : ((next, v) :: (b' ++ rest)).Perm (l.enum.drop next) :=
        hbperm.symm.trans hperm
      have hmem : (next, v) ∈ l.enum.drop next :=
        hperm'.subset (List.mem_cons_self _ _)
      have hvl := (mem_enum_drop hmem).2
      have hnextlt : next < l.length := by
        by_contra hge
        rw [List.getElem?_eq_none (by omega)] at hvl
        exact Option.noConfusion hvl
      have hv : v = l[next] := by
        rw [List.getElem?_eq_getElem hnextlt] at hvl
        exact (Option.some.injEq .. ▸ hvl).symm
      have hcons := enum_drop_cons hnextlt
      have htail : (b' ++ rest).Perm (l.enum.drop (next + 1)) := by
        have h2 : ((next, v) :: (b' ++ rest)).Perm
            ((next, l[next]) :: l.enum.drop (next + 1)) := by
          rw [← hcons]
          exact hperm'
        rw [hv] at h2
        exact h2.cons_inv
      have hlen' : b'.length ≤ fuel := by
        have := dictPop_length hpop
        omega
      obtain ⟨ih1, ih2, ih3⟩ := ih b' (next + 1) hlen' htail
      have hstep : drainReadyF (fuel + 1) b next =
          (v :: (drainReadyF fuel b' (next + 1)).1,
           (drainReadyF fuel b' (next + 1)).2.1,
           (drainReadyF fuel b' (next + 1)).2.2) := by
        simp [drainReadyF, hpop]
      rw [hstep]
      refine ⟨?_, ih2, ih3⟩
      have htake : l.take (next + 1) = l.take next ++ [v] := by
        rw [List.take_succ, List.getElem?_eq_getElem hnextlt, hv]
        rfl
      calc l.take next ++ v :: (drainReadyF fuel b' (next + 1)).1
          = (l.take next ++ [v]) ++ (drainReadyF fuel b' (next + 1)).1 := by simp
        _ = l.take (next + 1) ++ (drainReadyF fuel b' (next + 1)).1 := by rw [htake]
        _ = l.take (drainReadyF fuel b' (next + 1)).2.2 := ih1

theorem pmapStep_inv (l : List β) {st : DrainState β} {e : Nat × β}
    {rest : List (Nat × β)} (hinv : DrainInv l (e :: rest) st) :
    DrainInv l rest (pmapStep st e) := by
  obtain ⟨hout, hperm, -⟩ := hinv
  obtain ⟨i, v⟩ := e
  have hkeys : ((st.buffer ++ (i, v) :: rest).map Prod.fst).Nodup :=
    ((hperm.map Prod.fst).nodup_iff).mpr (nodup_keys_enum_drop l st.next)
  have hnotmem : i ∉ st.buffer.map Prod.fst := by
    intro hmem
    rw [List.map_append] at hkeys
    have hdisj := (List.nodup_append.mp hkeys).2.2
    exact hdisj hmem (by simp)
  have hins : dictInsert st.buffer i v = st.buffer ++ [(i, v)] :=
    dictInsert_of_not_mem v hnotmem
  have hperm' : (dictInsert st.buffer i v ++ rest).Perm (l.enum.drop st.next) := by
    rw [hins, List.append_assoc, List.singleton_append]
    exact hperm
  obtain ⟨h1, h2, h3⟩ := drainReadyF_spec l rest (dictInsert st.buffer i v).length
    (dictInsert st.buffer i v) st.next (Nat.le_refl _) hperm'
  exact ⟨by simp only [pmapStep, drainReady]; rw [hout]; exact h1, h2, h3⟩

theorem pmapFoldl_inv (l : List β) :
    ∀ (events : List (Nat × β)) (st : DrainState β), DrainInv l events st →
    DrainInv l [] (events.foldl pmapStep st) := by
  intro events
  induction events with
  | nil => intro st h; exact h
  | cons e rest ih =>
    intro st h
    exact ih (pmapStep st e) (pmapStep_inv l h)

theorem pmapDrain_perm_enum {l : List β} {events : List (Nat × β)}
    (h : events.Perm l.enum) : pmapDrain events = some l := by
  have hinit : DrainInv l events ⟨[], [], 0⟩ :=
    ⟨rfl, by simpa using h, rfl⟩
  obtain ⟨hout, hperm, hpop⟩ := pmapFoldl_inv l events _ hinit
  set st := events.foldl pmapStep (⟨[], [], 0⟩ : DrainState β) with hst
  rw [List.append_nil] at hperm
  have hge : l.length ≤ st.next := by
    by_contra hlt
    push_neg at hlt
    have hmem : (st.next, l[st.next]) ∈ st.buffer := by
      rw [hperm.mem_iff, enum_drop_cons hlt]
      exact List.mem_cons_self _ _
    exact dictPop_ne_none_of_mem hmem hpop
  have hbuf : st.buffer = [] := by
    have hdrop : l.enum.drop st.next = [] :=
      List.drop_eq_nil_of_le (by simpa [List.enum_length] using hge)
    exact (hdrop ▸ hperm).eq_nil
  have htake : l.take st.next = l := List.take_of_length_le hge
  simp only [pmapDrain, ← hst, hbuf, finalDrain, finalDrainF, List.isEmpty_nil,
    if_true, Option.map_some', List.append_nil, hout, htake]

/-- **C1**: for every finite input list `xs`, async function `func` that
completes on each element, and concurrency limit, `pmap` returns exactly
`[func(x) for x in xs]` — elementwise equal to mapping `func` and in input
order — no matter in which order the concurrent calls complete.  The
collector's event stream is any permutation of the indexed results
`(i, func(xs[i]))` (each worker emits its pair exactly once, in completion
order); the consuming loop of `pmap_aiter` reorders it to `xs.map func`. -/
theorem pmap_returns_results_in_input_order (xs : List α) (func : α → β)
    (events : List (Nat × β)) (h : events.Perm ((xs.map func).enum)) :
    pmapDrain events = some (xs.map func) :=
  pmapDrain_perm_enum h

/-- Witness for C1 at a concrete input: three items finishing in the order
2, 0, 1 are still yielded in input order. -/
theorem pmap_returns_results_in_input_order_witness :
    ([(2, 31), (0, 11), (1, 21)] : List (Nat × Nat)).Perm
      (([10, 20, 30].map (fun n => n + 1)).enum) ∧
    pmapDrain [(2, 31), (0, 11), (1, 21)] =
      some ([10, 20, 30].map (fun n => n + 1)) :=
  ⟨by decide, pmap_returns_results_in_input_order [10, 20, 30] (fun n => n + 1)
    [(2, 31), (0, 11), (1, 21)] (by decide)⟩

/-! ## Scopes: `new_scope` and `Scope.spawn` (duet/__init__.py lines 270-336) -/

/-- Errors that occur in the modelled fragment: `scopeExited` embeds the
`RuntimeError("scope exited")` constructed in `new_scope`'s error handler,
`alreadyReleased` embeds the `Exception("Already released.")` raised by
`Slot.release`, and `userError n` stands for an arbitrary user exception. -/
inductive Error where
  | scopeExited
  | alreadyReleased
  | userError (n : Nat)
deriving DecidableEq

/-- The exception caught by `new_scope`'s handler `except (impl.Interrupt,
Exception) as exc`: either an internal interrupt (the delivery vehicle for a
failed child's error) or an ordinary exception raised by the scope body.
Modelled from the spec: the `Interrupt` class lives in the missing
`duet/impl.py`; per the spec it carries the error that triggered it. -/
inductive ScopeExc where
  | interrupt (error : Error)
  | exception (error : Error)
deriving DecidableEq

/-- The error underlying the caught exception: `exc.error` for an interrupt
(line 311), the exception itself otherwise. -/
def underlyingError : ScopeExc → Error
  | .interrupt e => e
  | .exception e => e

/-- `isinstance(exc, impl.Interrupt)` (line 310). -/
def isInterrupt : ScopeExc → Bool
  | .interrupt _ => true
  | .exception _ => false

/-- A child task of a scope, as seen by `new_scope`'s error handler:
its identity and its `done` flag at the moment the handler runs. -/
structure Child where
  id : Nat
  done : Bool
deriving DecidableEq

/-- Whether a given `done`-trace can only ever mark more tasks done: once a
task is done it stays done (a task's `done` flag is terminal). -/
def DoneMonotone (done : Nat → Nat → Bool) : Prop :=
  ∀ j k t, j ≤ k → done j t = true → done k t = true

/-- The `finish_tasks` loop of `new_scope` (lines 290-295):

    while True:
        await impl.any_ready(tasks)
        tasks.intersection_update(scheduler.active_tasks)
        if not tasks: break

Modelled from the spec where it leans on the missing `duet/impl.py`:
`done k t` reports whether task `t` is done after the `k`-th wait on
`any_ready`, standing in for membership in `scheduler.active_tasks`.  `fuel`
bounds the number of waits; `none` means the loop is still waiting when fuel
runs out; `some k` means the loop exited after the `k`-th wait. -/
def finishTasks (done : Nat → Nat → Bool) : Nat → Nat → List Nat → Option Nat
  | 0, _, _ => none
  | fuel + 1, k, tasks =>
    let tasks' := tasks.filter (fun t => !(done k t))
    if tasks'.isEmpty then some k else finishTasks done fuel (k + 1) tasks'

theorem finishTasks_all_done {done : Nat → Nat → Bool} (hmono : DoneMonotone done) :
    ∀ (fuel k0 : Nat) (tasks : List Nat) (k : Nat),
    finishTasks done fuel k0 tasks = some k →
    k0 ≤ k ∧ ∀ t ∈ tasks, done k t = true := by
  intro fuel
  induction fuel with
  | zero =>
    intro k0 tasks k h
    exact absurd h (by simp [finishTasks])
  | succ fuel ih =>
    intro k0 tasks k h
    simp only [finishTasks] at h
    split at h
    · rename_i hemp
      obtain rfl : k0 = k := by simpa using h
      refine ⟨Nat.le_refl _, fun t ht => ?_⟩
      rw [List.isEmpty_iff, List.filter_eq_nil_iff] at hemp
      simpa using hemp t ht
    · obtain ⟨hle, hall⟩ := ih (k0 + 1) _ k h
      refine ⟨by omega, fun t ht => ?_⟩
      rcases hdone : done k0 t with _ | _
      · exact hall t (List.mem_filter.mpr ⟨ht, by simp [hdone]⟩)
      · exact hmono k0 k t (by omega) hdone

/-- **C2**: when a scope's `async with` block exits normally, `new_scope`
runs `await finish_tasks()` to completion first (line 299); the loop only
breaks once the task set is empty, and tasks leave the set only when done, so
every task spawned in the scope is done at exit. -/
theorem scope_exit_all_children_done {done : Nat → Nat → Bool} {fuel k : Nat}
    {tasks : List Nat} (hmono : DoneMonotone done)
    (hexit : finishTasks done fuel 0 tasks = some k) :
    ∀ t ∈ tasks, done k t = true :=
  (finishTasks_all_done hmono fuel 0 tasks k hexit).2

/-- Witness for C2 at a concrete run: children 5 and 7 are done at exit. -/
theorem scope_exit_all_children_done_witness :
    finishTasks (fun _ _ => true) 1 0 [5, 7] = some 0 ∧
    ∀ t ∈ [5, 7], (fun (_ _ : Nat) => true) 0 t = true :=
  ⟨by decide,
   @scope_exit_all_children_done (fun _ _ => true) 1 0 [5, 7]
     (fun _ _ _ _ h => h) (by decide)⟩

/-- The interrupt loop of `new_scope`'s error handler (lines 302-304):

    for task in tasks:
        if not task.done:
            task.interrupt(main_task, RuntimeError("scope exited"))

Returns the `(child id, interrupt error)` pairs posted, in order. -/
def interruptsPosted : List Child → List (Nat × Error)
  | [] => []
  | c :: rest =>
    if c.done then interruptsPosted rest
    else (c.id, Error.scopeExited) :: interruptsPosted rest

theorem interruptsPosted_eq (children : List Child) :
    interruptsPosted children =
      (children.filter (fun c => !c.done)).map
        (fun c => (c.id, Error.scopeExited)) := by
  induction children with
  | nil => rfl
  | cons c rest ih =>
    rcases hd : c.done with _ | _ <;>
      simp [interruptsPosted, List.filter_cons, hd, ih]

theorem interruptsPosted_mem_of_not_done :
    ∀ (children : List Child), ∀ c ∈ children, c.done = false →
    (c.id, Error.scopeExited) ∈ interruptsPosted children := by
  intro children c hc hdone
  rw [interruptsPosted_eq]
  exact List.mem_map.mpr ⟨c, List.mem_filter.mpr ⟨hc, by simp [hdone]⟩, rfl⟩

theorem interruptsPosted_error_fixed :
    ∀ (children : List Child), ∀ p ∈ interruptsPosted children,
    p.2 = Error.scopeExited := by
  intro children p hp
  rw [interruptsPosted_eq] at hp
  obtain ⟨c, -, rfl⟩ := List.mem_map.mp hp
  rfl

/-- The property claimed by C3: each interrupt posted by `new_scope`'s error
handler carries the error that triggered the scope exit. -/
def InterruptsCarryTriggeringError : Prop :=
  ∀ (exc : ScopeExc) (children : List Child),
    ∀ p ∈ interruptsPosted children, p.2 = underlyingError exc

/-- Counterexample to C3: when the scope body raises `userError 7`, the one
not-done child is interrupted with `RuntimeError("scope exited")`, not with
`userError 7`. -/
theorem scope_interrupt_error_cex : ¬ InterruptsCarryTriggeringError := by
  intro h
  have h7 := h (.exception (.userError 7)) [⟨0, false⟩] (0, .scopeExited)
    (by simp [interruptsPosted])
  exact absurd h7 (by decide)

/-- **C3 (amended)**: every child task not yet done when the scope exits with
an error receives an interrupt, but the interrupt carries the fixed sentinel
`RuntimeError("scope exited")` (line 304), not the triggering error; the
triggering error itself is re-raised to the scope's caller instead. -/
theorem scope_interrupts_carry_scope_exited (children : List Child) :
    (∀ c ∈ children, c.done = false →
      (c.id, Error.scopeExited) ∈ interruptsPosted children) ∧
    (∀ p ∈ interruptsPosted children, p.2 = Error.scopeExited) :=
  ⟨interruptsPosted_mem_of_not_done children, interruptsPosted_error_fixed children⟩

/-- Witness for the amended C3: a concrete not-done child receives the
sentinel interrupt. -/
theorem scope_interrupts_carry_scope_exited_witness :
    (3, Error.scopeExited) ∈ interruptsPosted [⟨3, false⟩, ⟨4, true⟩] ∧
    ((3 : Nat), Error.scopeExited).2 = Error.scopeExited :=
  ⟨(scope_interrupts_carry_scope_exited [⟨3, false⟩, ⟨4, true⟩]).1 ⟨3, false⟩
      (by simp) rfl,
   (scope_interrupts_carry_scope_exited [⟨3, false⟩, ⟨4, true⟩]).2
      (3, Error.scopeExited) (by simp [interruptsPosted])⟩

/-- Outcome of `new_scope`'s error handler: the interrupts it posted, the
error it re-raises, whether the displayed exception context is suppressed
(`exc.__suppress_context__ = True`, line 312), and the `finish_tasks` round
at which the last child finished. -/
structure ScopeExitResult where
  interrupts : List (Nat × Error)
  raised : Error
  suppressContext : Bool
  doneRound : Nat
deriving DecidableEq

/-- The `except` branch of `new_scope` (lines 300-313), in source order:
post an interrupt to every child not yet done; set the main task
non-interruptible; run `finish_tasks` to completion ignoring further
interrupts; if the caught exception was an `impl.Interrupt`, unwrap its
underlying error and suppress the displayed context; re-raise.  The done
trace and fuel come from the `finishTasks` model (the scheduler internals are
in the missing `duet/impl.py`); `none` means the cleanup wait never finished
within `fuel` rounds. -/
def scopeErrorExit (exc : ScopeExc) (children : List Child)
    (done : Nat → Nat → Bool) (fuel : Nat) : Option ScopeExitResult :=
  let pending := (children.filter (fun c => !c.done)).map Child.id
  match finishTasks done fuel 0 pending with
  | none => none
  | some k =>
    some { interrupts := interruptsPosted children,
           raised := underlyingError exc,
           suppressContext := isInterrupt exc,
           doneRound := k }

/-- **C6**: when a `pmap` worker raises an error, the enclosing scope's error
handler runs with that error as the triggering exception (the worker failure
reaches the scope body as that very error, via the generator's
`collector.error(e)` and the collector-draining loop); the scope re-raises
exactly the triggering error, interrupts every worker not yet done, and only
returns once every worker is done, so no worker of the `pmap` remains active
after the call returns. -/
theorem pmap_error_propagates_and_stops_workers (exc : ScopeExc)
    (children : List Child) (done : Nat → Nat → Bool) (fuel : Nat)
    (res : ScopeExitResult) (hmono : DoneMonotone done)
    (hcoh : ∀ c ∈ children, c.done = true → done 0 c.id = true)
    (hexit : scopeErrorExit exc children done fuel = some res) :
    res.raised = underlyingError exc ∧
    (∀ c ∈ children, done res.doneRound c.id = true) ∧
    (∀ c ∈ children, c.done = false → (c.id, Error.scopeExited) ∈ res.interrupts) := by
  rw [scopeErrorExit] at hexit
  rcases hfin : finishTasks done fuel 0
      ((children.filter (fun c => !c.done)).map Child.id) with _ | k
  · rw [hfin] at hexit
    exact absurd hexit (by simp)
  · rw [hfin] at hexit
    obtain rfl : _ = res := by simpa using hexit
    obtain ⟨-, hall⟩ := finishTasks_all_done hmono fuel 0 _ k hfin
    refine ⟨rfl, fun c hc => ?_, fun c hc hdone => ?_⟩
    · rcases hd : c.done with _ | _
      · exact hall c.id (List.mem_map.mpr
          ⟨c, List.mem_filter.mpr ⟨hc, by simp [hd]⟩, rfl⟩)
      · exact hmono 0 k c.id (Nat.zero_le k) (hcoh c hc hd)
    · exact interruptsPosted_mem_of_not_done children c hc hdone

/-- Witness for C6 at a concrete run: one pending worker, which is
interrupted and finishes at round 1, while the triggering error is
re-raised. -/
theorem pmap_error_propagates_and_stops_workers_witness :
    (ScopeExitResult.mk [(1, Error.scopeExited)] (Error.userError 9) false 1).raised
        = underlyingError (ScopeExc.exception (Error.userError 9)) ∧
    (∀ c ∈ [(⟨1, false⟩ : Child)],
      (fun (k : Nat) (_ : Nat) => decide (0 < k))
        (ScopeExitResult.mk [(1, Error.scopeExited)] (Error.userError 9) false 1).doneRound
        c.id = true) ∧
    (∀ c ∈ [(⟨1, false⟩ : Child)], c.done = false →
      (c.id, Error.scopeExited) ∈
        (ScopeExitResult.mk [(1, Error.scopeExited)] (Error.userError 9) false 1).interrupts) :=
  pmap_error_propagates_and_stops_workers (.exception (.userError 9))
    [⟨1, false⟩] (fun k _ => decide (0 < k)) 3 _
    (fun j k t hjk hj => by
      simp only [decide_eq_true_eq] at hj ⊢
      omega)
    (by decide) (by decide)

/-- **C7**: when a spawned task raises an error `E`, the scope's main task
receives it as `impl.Interrupt` carrying `E`; the handler finishes all other
spawned tasks, then unwraps the interrupt and re-raises exactly `E` with
`__suppress_context__ = True`, so the internal interrupt vehicle does not
appear in the user-visible traceback cause chain. -/
theorem scope_reraises_child_error_suppressing_context (e : Error)
    (children : List Child) (done : Nat → Nat → Bool) (fuel : Nat)
    (res : ScopeExitResult)
    (hexit : scopeErrorExit (.interrupt e) children done fuel = some res) :
    res.raised = e ∧ res.suppressContext = true := by
  rw [scopeErrorExit] at hexit
  rcases hfin : finishTasks done fuel 0
      ((children.filter (fun c => !c.done)).map Child.id) with _ | k
  · rw [hfin] at hexit
    exact absurd hexit (by simp)
  · rw [hfin] at hexit
    obtain rfl : _ = res := by simpa using hexit
    exact ⟨rfl, rfl⟩

/-- Witness for C7 at a concrete run. -/
theorem scope_reraises_child_error_suppressing_context_witness :
    (ScopeExitResult.mk [] (Error.userError 3) true 0).raised = Error.userError 3 ∧
    (ScopeExitResult.mk [] (Error.userError 3) true 0).suppressContext = true :=
  scope_reraises_child_error_suppressing_context (.userError 3) []
    (fun _ _ => true) 1 _ (by decide)

/-! ## Limiter and Slot (duet/__init__.py lines 339-425) -/

/-- State of a `Limiter`: the (mutable, possibly unbounded) capacity, the
current holder count, the FIFO deque of waiter futures, and the list of
availability waiters.  Python ints are embedded as `Int`; futures are
identified by numbers; the head of `waiters` is the front of the deque. -/
structure Limiter where
  capacity : Option Int
  count : Int
  waiters : List Nat
  availableWaiters : List Nat
deriving DecidableEq

/-- `Limiter.is_available` (lines 368-370). -/
def isAvailable (lim : Limiter) : Bool :=
  match lim.capacity with
  | none => true
  | some c => decide (lim.count < c)

/-- First half of `Limiter.__aenter__` (lines 372-376), up to the `await`:
if the limiter is available the caller proceeds past the `if` at once and
increments `count` (admitted, `true`); otherwise a fresh waiter future `w` is
appended to the deque and the caller suspends on it (`false`). -/
def aenterStart (lim : Limiter) (w : Nat) : Limiter × Bool :=
  if isAvailable lim then ({ lim with count := lim.count + 1 }, true)
  else ({ lim with waiters := lim.waiters ++ [w] }, false)

/-- Second half of `Limiter.__aenter__` (line 377): resuming after the
awaited waiter future is fulfilled, the caller increments `count` — without
re-checking the capacity. -/
def aenterFinish (lim : Limiter) : Limiter :=
  { lim with count := lim.count + 1 }

/-- `Limiter._release` (lines 386-394): decrement `count`; if any waiter is
queued, pop the head waiter and fulfil it; fulfil and clear all availability
waiters.  Returns the new state, the fulfilled waiter if any, and the
fulfilled availability waiters. -/
def release (lim : Limiter) : Limiter × Option Nat × List Nat :=
  let lim1 : Limiter := { lim with count := lim.count - 1 }
  let popped : Limiter × Option Nat :=
    match lim1.waiters with
    | [] => (lim1, none)
    | f :: rest => ({ lim1 with waiters := rest }, some f)
  let avail := popped.1.availableWaiters
  ({ popped.1 with availableWaiters := [] }, popped.2, avail)

/-- The property claimed by C4: `_release` fulfils the head waiter only when
a waiter exists and, after the decrement, `count` is below the (set)
capacity. -/
def ReleaseChecksCapacity : Prop :=
  ∀ (lim : Limiter) (w : Nat), (release lim).2.1 = some w →
    lim.waiters ≠ [] ∧ ∀ c, lim.capacity = some c → (release lim).1.count < c

/-- Counterexample to C4: with capacity reassigned down to 1 while three
slots are held and one waiter is queued, `_release` still fulfils the waiter
although the decremented count (2) is not below the capacity (1). -/
theorem limiter_release_capacity_cex : ¬ ReleaseChecksCapacity := by
  intro h
  have h2 := (h ⟨some 1, 3, [42], []⟩ 42 (by decide)).2 1 rfl
  exact absurd h2 (by decide)

/-- **C4 (amended)**: `_release` decrements `count` and fulfils the head
waiter whenever one exists, with no capacity re-check.  Consequently, when
`capacity` has been reassigned below the current `count`, the very next
release still admits a queued waiter; the invariant `count ≤ capacity` is not
re-established by `_release` itself. -/
theorem limiter_release_pops_head_waiter (lim : Limiter) :
    (release lim).1.count = lim.count - 1 ∧
    (release lim).2.1 = lim.waiters.head? ∧
    (release lim).1.waiters = lim.waiters.tail ∧
    (release lim).1.availableWaiters = [] ∧
    (release lim).2.2 = lim.availableWaiters := by
  rcases lim with ⟨cap, cnt, ws, avs⟩
  cases ws <;> simp [release]

/-- `Slot` (lines 416-425): a handle with a `called` flag; `release` raises
`Exception("Already released.")` if the flag is set, else sets it and invokes
the limiter's `_release`.  The limiter paired with the slot is threaded
explicitly; on the error path it is returned untouched. -/
def slotRelease (s : Bool) (lim : Limiter) :
    Except Error (Bool × Option Nat × List Nat) × Limiter :=
  if s then (.error .alreadyReleased, lim)
  else
    let r := release lim
    (.ok (true, r.2), r.1)

/-- **C8**: the first `Slot.release` call invokes `_release` exactly once —
the limiter ends in the `_release` state, with `count` decremented by one —
and returns the slot with `called = true`; a second call on that slot raises
`Already released.` and leaves the limiter unchanged. -/
theorem slot_release_exactly_once (lim lim2 : Limiter) :
    (slotRelease false lim).2 = (release lim).1 ∧
    (slotRelease false lim).1 = .ok (true, (release lim).2) ∧
    (release lim).1.count = lim.count - 1 ∧
    (slotRelease true lim2).1 = .error .alreadyReleased ∧
    (slotRelease true lim2).2 = lim2 := by
  refine ⟨rfl, rfl, ?_, rfl, rfl⟩
  rcases lim with ⟨cap, cnt, ws, avs⟩
  cases ws <;> simp [release]

/-! ## Limiter fairness: interleavings of acquire, resume and release

The limiter's code runs atomically between awaits of the single-threaded
cooperative scheduler.  An execution of tasks contending for one limiter is
therefore a sequence of three kinds of atomic events, each exactly the code
of the corresponding section of `Limiter`: an acquire call running
`__aenter__` up to its suspension point (`aenterStart`), a woken waiter
resuming after its future was fulfilled (`aenterFinish`), and a holder
releasing (`release`). -/

inductive LEvent where
  | acq (t : Nat)
  | wake (t : Nat)
  | rel
deriving DecidableEq

/-- Bookkeeping around the limiter state: `arrivals` — tasks in the order
their acquire calls started; `admitted` — tasks in the order their acquire
calls returned (slot obtained); `woken` — tasks whose waiter future has been
fulfilled but which have not yet resumed; `enqueued`/`wokenLog` — the orders
in which tasks entered and were popped from the waiter deque; `holders` —
the number of currently held slots. -/
structure LimSys where
  lim : Limiter
  arrivals : List Nat
  admitted : List Nat
  woken : List Nat
  enqueued : List Nat
  wokenLog : List Nat
  holders : Nat
deriving DecidableEq

def initSys (capacity : Option Int) : LimSys :=
  { lim := ⟨capacity, 0, [], []⟩, arrivals := [], admitted := [], woken := [],
    enqueued := [], wokenLog := [], holders := 0 }

/-- One interleaving step.  The guards restrict traces to ones the scheduler
can produce: a task calls acquire at most once, only a task whose waiter
future was fulfilled resumes, and only a current holder releases. -/
def stepEv (s : LimSys) : LEvent → Option LimSys
  | .acq t =>
    if t ∈ s.arrivals then none
    else
      let r := aenterStart s.lim t
      if r.2 then
        some { s with
          lim := r.1
          arrivals := s.arrivals ++ [t]
          admitted := s.admitted ++ [t]
          holders := s.holders + 1 }
      else
        some { s with
          lim := r.1
          arrivals := s.arrivals ++ [t]
          enqueued := s.enqueued ++ [t] }
  | .wake t =>
    if t ∈ s.woken then
      some { s with
        lim := aenterFinish s.lim
        woken := s.woken.erase t
        admitted := s.admitted ++ [t]
        holders := s.holders + 1 }
    else none
  | .rel =>
    if s.holders = 0 then none
    else
      let r := release s.lim
      match r.2.1 with
      | none => some { s with lim := r.1, holders := s.holders - 1 }
      | some w =>
        some { s with
          lim := r.1
          holders := s.holders - 1
          woken := s.woken ++ [w]
          wokenLog := s.wokenLog ++ [w] }

def runEvents (capacity : Option Int) (events : List LEvent) : Option LimSys :=
  events.foldlM stepEv (initSys capacity)

/-- The property claimed by C5: in every reachable interleaving, tasks obtain
limiter slots in strict arrival order of their acquire calls — the admission
order is a subsequence of the arrival order. -/
def LimiterStrictlyFIFO : Prop :=
  ∀ (capacity : Option Int) (events : List LEvent) (s : LimSys),
    runEvents capacity events = some s → List.Sublist s.admitted s.arrivals

/-- Counterexample to C5: capacity 1; task 0 holds the slot, task 1 queues as
a waiter, task 0 releases (fulfilling task 1's future), and task 2 calls
acquire before task 1 has resumed.  Since `_release` already decremented
`count` and `__aenter__` checks only `is_available()`, task 2 is admitted
immediately, and task 1 then resumes and also increments `count` — admission
order `[0, 2, 1]` versus arrival order `[0, 1, 2]` (and `count = 2` exceeds
the capacity 1). -/
theorem limiter_fifo_cex : ¬ LimiterStrictlyFIFO := by
  intro h
  have hs := h (some 1) [.acq 0, .acq 1, .rel, .acq 2, .wake 1]
    ⟨⟨some 1, 2, [], []⟩, [0, 1, 2], [0, 2, 1], [], [1], [1], 2⟩ (by decide)
  exact absurd hs (by decide)

theorem stepEv_waiters_fifo {s s' : LimSys} {e : LEvent}
    (hstep : stepEv s e = some s')
    (hinv : s.wokenLog ++ s.lim.waiters = s.enqueued) :
    s'.wokenLog ++ s'.lim.waiters = s'.enqueued := by
  cases e with
  | acq t =>
    rw [stepEv] at hstep
    split at hstep
    · exact absurd hstep (by simp)
    · rcases hav : isAvailable s.lim with _ | _ <;>
        simp only [aenterStart, hav, Bool.false_eq_true, if_true, if_false,
          Option.some.injEq] at hstep <;> subst hstep
      · show s.wokenLog ++ (s.lim.waiters ++ [t]) = s.enqueued ++ [t]
        rw [← List.append_assoc, hinv]
      · simpa using hinv
  | wake t =>
    rw [stepEv] at hstep
    split at hstep
    · simp only [Option.some.injEq] at hstep
      subst hstep
      simpa [aenterFinish] using hinv
    · exact absurd hstep (by simp)
  | rel =>
    rw [stepEv] at hstep
    split at hstep
    · exact absurd hstep (by simp)
    · rcases hl : s.lim with ⟨cap, cnt, ws, avs⟩
      rw [hl] at hinv
      rcases ws with _ | ⟨f, rest⟩ <;>
        simp only [hl, release, Option.some.injEq] at hstep <;> subst hstep
      · simpa using hinv
      · simp only at hinv ⊢
        rw [List.append_assoc]
        simpa using hinv

theorem runEvents_waiters_fifo :
    ∀ (events : List LEvent) (s0 s : LimSys),
    List.foldlM stepEv s0 events = some s →
    s0.wokenLog ++ s0.lim.waiters = s0.enqueued →
    s.wokenLog ++ s.lim.waiters = s.enqueued := by
  intro events
  induction events with
  | nil =>
    intro s0 s h hinv
    obtain rfl : s0 = s := by simpa [List.foldlM] using h
    exact hinv
  | cons e rest ih =>
    intro s0 s h hinv
    rw [List.foldlM_cons] at h
    rcases hstep : stepEv s0 e with _ | s1
    · rw [hstep] at h
      exact absurd h (by simp)
    · rw [hstep] at h
      simp only [Option.bind_eq_bind, Option.some_bind] at h
      exact ih s1 s h (stepEv_waiters_fifo hstep hinv)

/-- **C5 (amended)**: admission is FIFO among the tasks that enter the waiter
deque — waiter futures are fulfilled in exactly the order the waiters were
enqueued (the deque is popped from the front and appended at the back, across
releases and capacity changes).  Strict arrival-order admission over all
acquirers fails, because a task that calls acquire while `count < capacity`
is admitted immediately and can overtake an earlier-arrived waiter whose
future has been fulfilled but which has not yet resumed. -/
theorem limiter_waiters_admitted_in_fifo_order (capacity : Option Int)
    (events : List LEvent) (s : LimSys)
    (h : runEvents capacity events = some s) :
    s.wokenLog ++ s.lim.waiters = s.enqueued :=
  runEvents_waiters_fifo events (initSys capacity) s h rfl

/-- Witness for the amended C5 at a concrete run: the sole queued waiter is
fulfilled, in enqueue order. -/
theorem limiter_waiters_admitted_in_fifo_order_witness :
    runEvents (some 1) [.acq 0, .acq 1, .rel] =
      some ⟨⟨some 1, 0, [], []⟩, [0, 1], [0], [1], [1], [1], 0⟩ ∧
    ([1] : List Nat) ++ ([] : List Nat) = [1] :=
  ⟨by decide,
   limiter_waiters_admitted_in_fifo_order (some 1) [.acq 0, .acq 1, .rel]
     ⟨⟨some 1, 0, [], []⟩, [0, 1], [0], [1], [1], [1], 0⟩ (by decide)⟩

/-! ## Blocking entry `run` (duet/__init__.py lines 65-78) -/

/-- A user async computation, embedded as a coroutine tree: it returns a
value, raises an error, or awaits a future (identified by a number) and
continues with that future's outcome. -/
inductive Comp (ε α : Type) where
  | pure (a : α)
  | fail (e : ε)
  | awaitFut (fid : Nat) (k : Except ε Nat → Comp ε α)

/-- Modelled from the spec (the scheduler lives in the missing
`duet/impl.py`, spec sections 4.3 and 4.7): `run` constructs a fresh scheduler,
spawns the computation as a root task, and ticks until the root task is done,
then returns its result or re-raises its error.  `env` gives each future's
terminal outcome (`none`: it never completes); each tick delivers one awaited
outcome; `fuel` bounds the ticks, with `none` meaning `run` is still blocked
when the fuel runs out. -/
def schedulerRun {ε α : Type} (env : Nat → Option (Except ε Nat)) :
    Nat → Comp ε α → Option (Except ε α)
  | _, .pure a => some (.ok a)
  | _, .fail e => some (.error e)
  | 0, .awaitFut _ _ => none
  | fuel + 1, .awaitFut fid k =>
    match env fid with
    | none => none
    | some r => schedulerRun env fuel (k r)

/-- Whether the body of the computation contains no await points. -/
def noAwaits {ε α : Type} : Comp ε α → Bool
  | .pure _ => true
  | .fail _ => true
  | .awaitFut _ _ => false

/-- What the body computes when called synchronously: its return value or
the exception it raises (defined for await-free bodies). -/
def syncOutcome {ε α : Type} : Comp ε α → Option (Except ε α)
  | .pure a => some (.ok a)
  | .fail e => some (.error e)
  | .awaitFut _ _ => none

/-- **C9**: for an async function whose body contains no await, `run`
(spawn as root task, tick until done, return the result or re-raise the
error) returns exactly the value the body computes synchronously, and raises
exactly the exception the body raises — whatever the future environment and
however few ticks are available. -/
theorem run_no_await_equals_sync {ε α : Type} (env : Nat → Option (Except ε Nat))
    (fuel : Nat) (c : Comp ε α) (h : noAwaits c = true) :
    schedulerRun env fuel c = syncOutcome c := by
  cases c with
  | pure a => cases fuel <;> rfl
  | fail e => cases fuel <;> rfl
  | awaitFut fid k => exact absurd h (by simp [noAwaits])

/-- Witness for C9 at concrete computations: a returning body and a raising
body, each without awaits, run with zero fuel in an empty environment. -/
theorem run_no_await_equals_sync_witness :
    schedulerRun (fun _ => none) 0 (Comp.pure (ε := Nat) 42) =
      syncOutcome (Comp.pure (ε := Nat) 42) ∧
    schedulerRun (fun _ => none) 0 (Comp.fail (α := Nat) 7) =
      syncOutcome (Comp.fail (α := Nat) 7) :=
  ⟨run_no_await_equals_sync (fun _ => none) 0 (Comp.pure 42) rfl,
   run_no_await_equals_sync (fun _ => none) 0 (Comp.fail 7) rfl⟩

/-! ## `awaitable` (duet/__init__.py lines 121-131) -/

/-- A Python value as classified by `awaitable`: an awaitable object
(awaiting it yields `result`), a bare future such as a
`concurrent.futures.Future` (not itself awaitable; recognised by
`AwaitableFuture.isfuture`), or a plain value. -/
inductive PyValue where
  | coroutine (result : PyValue)
  | future (result : PyValue)
  | plain (n : Nat)
deriving DecidableEq

/-- `inspect.isawaitable(value)` (line 123). -/
def isAwaitable : PyValue → Bool
  | .coroutine _ => true
  | _ => false

/-- `AwaitableFuture.isfuture(value)` (line 125).  Modelled from the spec
(futuretools is missing): recognises bare futures. -/
def isFuture : PyValue → Bool
  | .future _ => true
  | _ => false

/-- `AwaitableFuture.wrap(value)` (line 126).  Modelled from the spec:
wraps a bare future into an awaitable that yields the future's result. -/
def wrapFuture : PyValue → PyValue
  | .future r => .coroutine r
  | v => v

/-- `_awaitable_value(value)` (lines 130-131): an async function returning
`value`; awaiting it yields `value` itself. -/
def awaitableValue (v : PyValue) : PyValue := .coroutine v

/-- `awaitable(value)` (lines 121-127). -/
def awaitable (value : PyValue) : PyValue :=
  if isAwaitable value then value
  else if isFuture value then wrapFuture value
  else awaitableValue value

/-- Awaiting a value: yields the result of an awaitable, undefined (a
`TypeError`) otherwise. -/
def awaitOutcome : PyValue → Option PyValue
  | .coroutine r => some r
  | _ => none

/-- **C10**: `awaitable` is the identity on awaitables — it returns the very
same object — and a unit injection otherwise: for a value that is neither
awaitable nor a future, awaiting `awaitable(v)` yields exactly `v`. -/
theorem awaitable_identity_or_unit (v : PyValue) :
    (isAwaitable v = true → awaitable v = v) ∧
    (isAwaitable v = false → isFuture v = false →
      awaitOutcome (awaitable v) = some v) := by
  cases v <;>
    simp [awaitable, isAwaitable, isFuture, wrapFuture, awaitableValue,
      awaitOutcome]

/-- Witness for C10 at concrete values: an awaitable is returned unchanged,
and awaiting the wrap of a plain value yields that value. -/
theorem awaitable_identity_or_unit_witness :
    awaitable (.coroutine (.plain 0)) = .coroutine (.plain 0) ∧
    awaitOutcome (awaitable (.plain 5)) = some (.plain 5) :=
  ⟨(awaitable_identity_or_unit (.coroutine (.plain 0))).1 rfl,
   (awaitable_identity_or_unit (.plain 5)).2 rfl rfl⟩

end Duet
